import Mathlib

/-!
Verification of the conda-forge feedstock-creation pipeline
(`make_package_db.py`, `create_feedstock.py`).

The pipeline's pure computational core is shallowly embedded: Python strings
become `String`/`List Char`, Python dictionaries become association lists with
Python's insertion semantics, exceptions become `Except`, and the filesystem /
network side effects are dropped while the values the code computes for them
(destination paths, archive names, rewritten documents) are kept.

All inputs appearing in the claims are ASCII, so character classes
(`str.strip` whitespace, `\d`, `\w`) are modelled on their ASCII meaning.
-/



/-! ### Python string primitives -/

/-- Whitespace characters stripped by Python's `str.strip()` (ASCII range). -/
def isPySpace (c : Char) : Bool :=
  c = ' ' || c = '\t' || c = '\n' || c = '\r' || c = '\x0b' || c = '\x0c'

/-- `str.strip()` on a character list: drop whitespace from both ends. -/
def pyStripChars (cs : List Char) : List Char :=
  ((cs.dropWhile isPySpace).reverse.dropWhile isPySpace).reverse

/-- Python `str.strip()`. -/
def pyStrip (s : String) : String := ⟨pyStripChars s.data⟩

/-- Python `content.split("\n")`: `""` gives `[""]`, a trailing newline gives a
trailing empty field. -/
def splitNlChars : List Char → List (List Char)
  | [] => [[]]
  | c :: rest =>
    if c = '\n' then [] :: splitNlChars rest
    else
      match splitNlChars rest with
      | [] => [[c]]
      | l :: ls => (c :: l) :: ls

/-- Python `content.split("\n")` on `String`s. -/
def splitNl (s : String) : List String := (splitNlChars s.data).map String.mk

/-- Python `"\n".join(lines)`. -/
def joinNl : List String → String
  | [] => ""
  | [s] => s
  | s :: rest => s ++ "\n" ++ joinNl rest

/-- Python `s.startswith(pat)` on character lists. -/
def startsWithChars : List Char → List Char → Bool
  | _, [] => true
  | [], _ :: _ => false
  | c :: cs, p :: ps => c = p && startsWithChars cs ps

/-- Python `s.endswith(pat)` on character lists. -/
def endsWithChars (cs pat : List Char) : Bool :=
  startsWithChars cs.reverse pat.reverse

/-- Python substring test `pat in s` on character lists. -/
def containsChars : List Char → List Char → Bool
  | [], pat => pat.isEmpty
  | c :: cs, pat => startsWithChars (c :: cs) pat || containsChars cs pat

/-- Python `s.startswith(pat)`. -/
def pyStartsWith (s pat : String) : Bool := startsWithChars s.data pat.data

/-- Python `s.endswith(pat)`. -/
def pyEndsWith (s pat : String) : Bool := endsWithChars s.data pat.data

/-- Python `pat in s` (substring containment). -/
def pyContains (s pat : String) : Bool := containsChars s.data pat.data

/-! ### Requirements extractor (`extract_reqs`, create_feedstock.py lines 85-113)

A two-state line scanner over the metadata document.  Each line is first
`strip()`ped; the stripped line is what gets emitted. -/

/-- The four recognized requirements subsection keys. -/
def reqKeys : List String := ["host:", "run:", "build:", "run_constrained:"]

/-- The loop body of `extract_reqs`: state `inReq` (Python `in_req`) times the
remaining (raw) lines, producing the emitted lines. -/
def extractReqsLines : Bool → List String → List String
  | _, [] => []
  | inReq, l :: rest =>
    let line := pyStrip l
    if line = "" then extractReqsLines inReq rest
    else if inReq = false then
      if pyStartsWith line "requirements:" then line :: extractReqsLines true rest
      else extractReqsLines false rest
    else
      if pyStartsWith line "#" then extractReqsLines true rest
      else if pyStartsWith line "\x7b" then line :: extractReqsLines true rest
      else if pyStartsWith line "-" then line :: extractReqsLines true rest
      else if pyEndsWith line ":" && !(reqKeys.contains line) then
        extractReqsLines false rest
      else line :: extractReqsLines true rest

/-- `extract_reqs(meta_yaml)`: split the document text on newlines, run the
scanner from the `outside` state, join the emitted lines with newlines. -/
def extract_reqs (text : String) : String :=
  joinNl (extractReqsLines false (splitNl text))

/-! ### Package records and the version resolver
(`get_pkg_spec`, create_feedstock.py lines 188-212)

`packaging.version.parse` (`PV`) is external library code; the resolver is
embedded parameterically over the comparison `pvLE v w` standing for
`PV(v) <= PV(w)`. -/

/-- One record of the package database, as built by `parse_repodata`
(make_package_db.py lines 46-56). -/
structure PkgRec where
  name : String
  version : String
  url : String
  depends : List String
  nv : String
  timestamp : Int
  build : String
deriving DecidableEq

/-- Errors raised by `get_pkg_spec`. -/
inductive ResolveErr where
  /-- `ValueError: Requested package ... is not in database` -/
  | notFound (pkg : String)
  /-- `IndexError` from `pkg_specs[-1]` on an empty group -/
  | indexErr
  /-- `ValueError: version ... of ... is not found in the db` -/
  | versionNotFound (ver pkg : String)
deriving DecidableEq

/-- Lookup in the JSON-object package database (keys are unique; modelled as
first-match association-list lookup). -/
def dbLookup (db : List (String × List PkgRec)) (pkg : String) :
    Option (List PkgRec) :=
  (db.find? (fun e => e.1 == pkg)).map (·.2)

/-- The build-string narrowing step of `get_pkg_spec` (lines 194-201):
if `py` is truthy (non-empty), keep the records whose `build` contains `py`
as a substring, unless that filter comes back empty, in which case the whole
group is kept and only a warning is printed. -/
def applyBuildFilter (py : String) (specs : List PkgRec) : List PkgRec :=
  if py ≠ "" then
    let fs := specs.filter (fun x => pyContains x.build py)
    if 0 < fs.length then fs else specs
  else specs

/-- `get_pkg_spec(pkg, ver, py, pkg_db)` (lines 188-212), with the semantic
version comparison `pvLE` as a parameter.  `ver = none` selects
`pkg_specs[-1]`; otherwise the group is scanned in reverse for the first
record whose parsed version is `<=` the parsed bound. -/
def get_pkg_spec (pvLE : String → String → Bool)
    (db : List (String × List PkgRec)) (pkg : String)
    (ver : Option String) (py : String) : Except ResolveErr PkgRec :=
  match dbLookup db pkg with
  | none => .error (.notFound pkg)
  | some specs =>
    let specs2 := applyBuildFilter py specs
    match ver with
    | none =>
      match specs2.getLast? with
      | some r => .ok r
      | none => .error .indexErr
    | some v =>
      match specs2.reverse.find? (fun p => pvLE p.version v) with
      | some r => .ok r
      | none => .error (.versionNotFound v pkg)

/-! ### Source filename disambiguation
(`fn_is_simple`, create_feedstock.py line 21; the download loop,
lines 271-274)

`fn_is_simple` is `re.compile(r"^v?\d+([\-.]\d+)+(\.\w+)+$").match`.  The
anchored pattern is embedded by deciding language membership: a string is in
the language iff, after consuming an optional leading `v`, it decomposes as
`\d+`, then one or more groups `[\-.]\d+`, then one or more groups `\.\w+`.
Because every group after the first starts with a separator character
(`-` or `.`) and `\d`/`\w` never match a separator, any regex match aligns
group boundaries exactly with the separator positions, so membership is
decided on the separator-split token list.  Character classes are ASCII
(all filenames under consideration are ASCII). -/

/-- `\w` (ASCII): letters, digits, underscore. -/
def isWordChar (c : Char) : Bool := c.isAlphanum || c = '_'

/-- The separator characters of the version-only shape: `-` and `.`. -/
def isSepChar (c : Char) : Bool := c = '-' || c = '.'

/-- Split a string into its first separator-free token and the list of
(separator, following token) groups. Tokens may come out empty (for adjacent
separators); validity is checked by the caller. -/
def tokenizeFn : List Char → List Char × List (Char × List Char)
  | [] => ([], [])
  | c :: rest =>
    let (t0, gs) := tokenizeFn rest
    if isSepChar c then ([], (c, t0) :: gs) else (c :: t0, gs)

/-- `fn_is_simple(fn)` as a language-membership test, true iff the regex
matches: optional `v`, then an all-digit token, then `k ≥ 1` groups
`[\-.]\d+`, then at least one group `\.\w+` reaching the end. -/
def fn_is_simple (s : String) : Bool :=
  let cs := match s.data with
    | 'v' :: rest => rest
    | cs => cs
  let (t0, gs) := tokenizeFn cs
  !t0.isEmpty && t0.all Char.isDigit &&
  !gs.isEmpty &&
  (List.range gs.length).any (fun k =>
    1 ≤ k && k < gs.length &&
    ((gs.take k).all fun st => !st.2.isEmpty && st.2.all Char.isDigit) &&
    ((gs.drop k).all fun st =>
      st.1 == '.' && !st.2.isEmpty && st.2.all isWordChar))

/-! ### `urllib.parse.urlparse(url).path` and `os.path.basename` -/

/-- Characters allowed in a URL scheme: letters, digits, `+`, `-`, `.`. -/
def isSchemeChar (c : Char) : Bool := c.isAlphanum || c = '+' || c = '-' || c = '.'

/-- Split at the first occurrence of `c`, returning the parts before and
after it, or `none` if `c` does not occur. -/
def splitAtFirst : List Char → Char → Option (List Char × List Char)
  | [], _ => none
  | x :: xs, c =>
    if x = c then some ([], xs)
    else (splitAtFirst xs c).map (fun p => (x :: p.1, p.2))

/-- The `path` component of `urllib.parse.urlparse(url)`: strip a scheme
(`scheme:` with all-scheme characters before the first `:`), a netloc
(`//...` up to the next `/`, `?` or `#`), a fragment (from the first `#`)
and a query (from the first `?`).  Parameter splitting of the last path
segment (`;params`) is not modelled — no URL in this development contains
`;`. -/
def urlparsePath (url : String) : String :=
  let cs := url.data
  let cs := match splitAtFirst cs ':' with
    | some (before, after) =>
      if !before.isEmpty && before.all isSchemeChar then after else cs
    | none => cs
  let cs := match cs with
    | '/' :: '/' :: rest =>
      '/' :: '/' :: rest |>.drop 2 |>.dropWhile (fun c => c != '/' && c != '?' && c != '#')
    | _ => cs
  let cs := cs.takeWhile (fun c => c != '#')
  let cs := cs.takeWhile (fun c => c != '?')
  ⟨cs⟩

/-- `os.path.basename` (POSIX): the suffix after the last `/`. -/
def basenameChars (cs : List Char) : List Char :=
  (cs.reverse.takeWhile (fun c => c != '/')).reverse

/-- `os.path.basename` on `String`s. -/
def basename (s : String) : String := ⟨basenameChars s.data⟩

/-- `url_basename(url)` (create_feedstock.py lines 145-146). -/
def url_basename (url : String) : String := basename (urlparsePath url)

/-- The destination filename computed for one source entry by the download
loop of `create_feedstock` (lines 271-274): the explicit `fn` if declared,
else the basename of the URL path; prefixed with `"{pkg}-"` when
`fn_is_simple` matches it. -/
def destFilename (pkg : String) (fnExplicit : Option String) (url : String) :
    String :=
  let fn := match fnExplicit with
    | some f => f
    | none => url_basename url
  if fn_is_simple fn then pkg ++ "-" ++ fn else fn

/-! ### Python `str.replace` and POSIX path join -/

/-- Python `s.replace("", new)`: `new` is inserted before every character
and at the end. -/
def interleaveNew (new : List Char) : List Char → List Char
  | [] => new
  | c :: rest => new ++ c :: interleaveNew new rest

/-- Fuel-indexed worker for `str.replace` with non-empty `old`: replace
non-overlapping occurrences left to right.  `fuel = cs.length` suffices
because every step consumes at least one character. -/
def pyReplaceAux (old new : List Char) : Nat → List Char → List Char
  | 0, cs => cs
  | fuel + 1, cs =>
    match cs with
    | [] => []
    | c :: rest =>
      if startsWithChars (c :: rest) old then
        new ++ pyReplaceAux old new fuel ((c :: rest).drop old.length)
      else c :: pyReplaceAux old new fuel rest

/-- Python `s.replace(old, new)` on character lists. -/
def pyReplaceChars (cs old new : List Char) : List Char :=
  if old.isEmpty then interleaveNew new cs
  else pyReplaceAux old new cs.length cs

/-- Python `s.replace(old, new)`. -/
def pyReplace (s old new : String) : String :=
  ⟨pyReplaceChars s.data old.data new.data⟩

/-- `os.path.join(a, b)` (POSIX, two arguments). -/
def pathJoin (a b : String) : String :=
  if b.data.head? = some '/' then b
  else if a = "" || a.data.getLast? = some '/' then a ++ b
  else a ++ "/" ++ b

/-! ### Two-layer archive unpack (`create_feedstock`, lines 228-244) -/

/-- One call to `extract_archive`: archive path, destination directory and
format key (`"conda"` = outer zip layer, `"zst"` = inner decompressed tar,
`"guess"` = `shutil.unpack_archive`'s extension dispatch). -/
structure ExtractCall where
  archive : String
  dest : String
  fmt : String
deriving DecidableEq

/-- The sequence of unpack calls `create_feedstock` issues for a downloaded
artifact (lines 228-244): `out_fn = join(workdir, url_basename(url))`;
`extract_dir = join(workdir, basename(out_fn) with ".tar.bz2" and ".conda"
removed)`; a `.conda` artifact is unpacked as the outer zip layer into
`extract_dir`, then the derived inner file
`info-<basename with .conda → .tar.zst>` inside `extract_dir` is unpacked
(zstd-decompressed tar) into the same `extract_dir`. -/
def unpackPlan (workdir url : String) : List ExtractCall :=
  let out_fn := pathJoin workdir (url_basename url)
  let ed := pyReplace (pyReplace (basename out_fn) ".tar.bz2" "") ".conda" ""
  let extract_dir := pathJoin workdir ed
  if pyContains out_fn ".conda" then
    let info_out_fn := "info-" ++ pyReplace (url_basename url) ".conda" ".tar.zst"
    let info_out_path := pathJoin extract_dir info_out_fn
    [⟨out_fn, extract_dir, "conda"⟩, ⟨info_out_path, extract_dir, "zst"⟩]
  else
    [⟨out_fn, extract_dir, "guess"⟩]

/-! ### Source extraction (`load_urls`, create_feedstock.py lines 24-49)

`load_urls` reads the recipe's `source` field — a single mapping or a list
of mappings — and records, per `url`, the selected hash and the optional
explicit filename.  It performs no I/O besides reading the metadata file;
`create_feedstock` calls it (line 270) strictly before the download loop
(lines 271-277). -/

/-- One mapping of the recipe's `source` field, restricted to the keys
`load_urls` reads. -/
structure SrcItem where
  url : Option String
  md5 : Option String
  sha256 : Option String
  sha1 : Option String
  fn : Option String
deriving DecidableEq

/-- The value `load_urls` stores per URL: `[hash_type, hash, fn]`. -/
structure SrcInfo where
  hashType : String
  hashVal : String
  fn : Option String
deriving DecidableEq

/-- Python dict assignment `d[k] = v`: update in place if the key exists
(keeping its position), else append at the end. -/
def dictInsert (d : List (String × SrcInfo)) (k : String) (v : SrcInfo) :
    List (String × SrcInfo) :=
  match d with
  | [] => [(k, v)]
  | (k', v') :: rest =>
    if k' = k then (k, v) :: rest
    else (k', v') :: dictInsert rest k v

/-- The per-item hash selection of `load_urls` (lines 38-46): precedence
md5 > sha256 > sha1, `ValueError` (the spec's `MissingHashError`) when none
of the three keys is present. -/
def selectHash (it : SrcItem) : Except String (String × String) :=
  match it.md5 with
  | some h => .ok ("md5", h)
  | none =>
    match it.sha256 with
    | some h => .ok ("sha256", h)
    | none =>
      match it.sha1 with
      | some h => .ok ("sha1", h)
      | none => .error "Unknown hash type"

/-- The source loop of `load_urls` (lines 34-48), with the result dict
accumulated on the left. -/
def loadUrlsAux : List SrcItem → List (String × SrcInfo) →
    Except String (List (String × SrcInfo))
  | [], acc => .ok acc
  | it :: rest, acc =>
    match it.url with
    | none => loadUrlsAux rest acc
    | some u =>
      match selectHash it with
      | .error e => .error e
      | .ok (ht, hv) => loadUrlsAux rest (dictInsert acc u ⟨ht, hv, it.fn⟩)

/-- `load_urls(meta_yaml)` over the normalized `source` value: `none` when
the `source` key is absent (result `{}`), otherwise the list of source
mappings (a single mapping is wrapped in a one-element list, line 32-33). -/
def load_urls (source? : Option (List SrcItem)) :
    Except String (List (String × SrcInfo)) :=
  match source? with
  | none => .ok []
  | some items => loadUrlsAux items []

/-- The source-download phase of `create_feedstock` (lines 269-277):
`load_urls` runs first; on success there is one download per extracted
entry, at `join(pkgs_dir, destination filename)`.  When `load_urls` raises,
the loop is never entered, so the failing plan carries no downloads. -/
def sourceDownloadPlan (pkg pkgsDir : String)
    (source? : Option (List SrcItem)) : Except String (List String) :=
  match load_urls source? with
  | .error e => .error e
  | .ok urls => .ok (urls.map (fun uv => pathJoin pkgsDir (destFilename pkg uv.2.fn uv.1)))

/-! ### URL rewriting (`replace_urls`, create_feedstock.py lines 52-82)

The candidate-line pattern is
`(^\s*-?\s*url:\s*)([^{]+)\{\{.*\}\}([^}]+)$` (line 53), applied with
`re.match` to single lines (no newlines).  The embedding decides membership
and computes the three capture groups deterministically:

* `\s*-?\s*url:` — maximal whitespace, an optional dash, maximal
  whitespace, then the literal `url:`.  Backtracking cannot produce any
  other split because neither `-` nor `url:` starts with whitespace.
* the `\s*` closing group 1 and `([^{]+)` — let `pre` be the characters
  strictly before the first `{`; group 1's trailing whitespace is the
  maximal whitespace prefix of `pre` that still leaves `([^{]+)` at least
  one character; the match then requires two consecutive braces at the
  first `{`.
* `.*\}\}([^}]+)$` — group 3 is the maximal `}`-free suffix, which must be
  non-empty and be preceded immediately by `}}`; greedy `.*` makes this
  split the one the engine reports, and no other split is possible since
  group 3 admits no `}`. -/

/-- The capture groups of a candidate `url:` line. -/
structure UrlLineMatch where
  g1 : List Char
  headLit : List Char
  tailLit : List Char
deriving DecidableEq

/-- Match `.*\}\}([^}]+)$` against the characters after the opening `{{`:
group 3 is the maximal `}`-free suffix, which must be non-empty and be
immediately preceded by `}}`. -/
def matchTail (r6 : List Char) : Option (List Char) :=
  let tl := (r6.reverse.takeWhile (fun c => c != '}')).reverse
  if tl.isEmpty then none
  else if endsWithChars (r6.take (r6.length - tl.length)) "\x7d\x7d".data then
    some tl
  else none

/-- Match `\s*([^{]+)\{\{.*\}\}([^}]+)$` against the characters after
`url:`, returning (whitespace belonging to group 1, group 2, group 3). -/
def matchBody (r4 : List Char) : Option (List Char × List Char × List Char) :=
  let pre := r4.takeWhile (fun c => c != '{')
  if pre.isEmpty then none
  else
    let ws3len := min (pre.takeWhile isPySpace).length (pre.length - 1)
    match r4.drop pre.length with
    | '{' :: '{' :: r6 =>
      (matchTail r6).map (fun tl => (pre.take ws3len, pre.drop ws3len, tl))
    | _ => none

/-- Match one line against the candidate pattern, returning the capture
groups, or `none` when the pattern does not match. -/
def matchUrlLine (line : List Char) : Option UrlLineMatch :=
  let ws1 := line.takeWhile isPySpace
  let r1 := line.dropWhile isPySpace
  let dash := if r1.head? == some '-' then ['-'] else []
  let r2 := if r1.head? == some '-' then r1.tail else r1
  let ws2 := r2.takeWhile isPySpace
  let r3 := r2.dropWhile isPySpace
  if startsWithChars r3 "url:".data then
    (matchBody (r3.drop 4)).map (fun g =>
      ⟨ws1 ++ dash ++ ws2 ++ "url:".data ++ g.1, g.2.1, g.2.2⟩)
  else none

/-- `re.match(re.escape(head) + ".*" + re.escape(tail), u)` (lines 64-67)
succeeds iff `u` starts with `head` and `tail` occurs somewhere in the
remainder (the pattern is left-anchored only). -/
def urlMatches (headLit tailLit : List Char) (u : List Char) : Bool :=
  startsWithChars u headLit && containsChars (u.drop headLit.length) tailLit

/-- Generic single-character split (Python `s.split(sep)` for a one-char
separator). -/
def splitOnChar (sep : Char) : List Char → List (List Char)
  | [] => [[]]
  | c :: rest =>
    if c = sep then [] :: splitOnChar sep rest
    else
      match splitOnChar sep rest with
      | [] => [[c]]
      | l :: ls => (c :: l) :: ls

/-- Join components with `/`. -/
def joinSlash : List (List Char) → List Char
  | [] => []
  | [x] => x
  | x :: rest => x ++ '/' :: joinSlash rest

/-- Drop the longest common prefix of two component lists. -/
def dropCommon : List (List Char) → List (List Char) →
    List (List Char) × List (List Char)
  | p :: ps, s :: ss =>
    if p = s then dropCommon ps ss else (p :: ps, s :: ss)
  | ps, ss => (ps, ss)

/-- `os.path.relpath(path, start)` for absolute, already-normal inputs (the
program absolutizes every directory argument with `get_abs_path` before
this point, and `os.path.relpath` itself absolutizes both arguments):
split both paths into non-empty `/`-components, drop the common prefix,
prepend one `..` per remaining `start` component; an empty result is
`"."`. -/
def relpath (path start : String) : String :=
  let pc := (splitOnChar '/' path.data).filter (fun c => !c.isEmpty)
  let sc := (splitOnChar '/' start.data).filter (fun c => !c.isEmpty)
  let (pr, sr) := dropCommon pc sc
  let rel := List.replicate sr.length "..".data ++ pr
  if rel.isEmpty then "." else ⟨joinSlash rel⟩

/-- The loop body of `replace_urls` for one line (lines 57-80): a
non-candidate line passes through; a candidate is looked up against the
known URLs in discovery order; on a hit the line is emitted commented out
(`"#" + m.group()`, the whole matched line) followed by
`m.group(1) + <destination path relative to the template's directory>`; on
a miss the line passes through and the not-found diagnostic (second
component) is emitted. -/
def replaceLine (urls : List (String × SrcInfo)) (pkgsDir tplDir : String)
    (line : String) : List String × Bool :=
  match matchUrlLine line.data with
  | none => ([line], false)
  | some m =>
    match urls.find? (fun uv => urlMatches m.headLit m.tailLit uv.1.data) with
    | none => ([line], true)
    | some (u, info) =>
      let fn := match info.fn with
        | some f => f
        | none => url_basename u
      let pkgPath := relpath (pathJoin pkgsDir fn) tplDir
      (["#" ++ line, String.mk m.g1 ++ pkgPath], false)

/-- `replace_urls(meta_yaml_tpl, urls, pkgs_dir)` (lines 52-82): the
document is split on newlines, each line processed by `replaceLine`, and
the results joined back with newlines (full-line replacement).  `tplDir` is
`dirname(meta_yaml_tpl)`. -/
def replace_urls (urls : List (String × SrcInfo)) (pkgsDir tplDir : String)
    (content : String) : String :=
  joinNl (((splitNl content).map
    (fun l => (replaceLine urls pkgsDir tplDir l).1)).flatten)

/-- The concrete document of claim C6. -/
def c6Doc : String :=
  "requirements:\n  host:\n    - a\n  run:\n    - b\nabout:\n  summary: x"

/-! ### Database build sort (`parse_repodata`, make_package_db.py lines 57-63)

Python's `sorted` is a stable ascending mergesort, modelled by
`List.mergeSort`.  `sorted(v, key=PV)` parses every version during the
decorate step — before any comparison — so one unparseable version string
makes the whole call raise and sends the entire group, not individual
records, to the tuple-key fallback.  `packaging.version.parse` is external
library code; it is a parameter `parse` into a linearly ordered key type,
returning `none` where the library would raise `InvalidVersion`. -/

/-- `PV(a.version) <= PV(b.version)` as a boolean comparison; the `none`
branches (parse failure) are unreachable under the all-parsed guard and
are fixed so the relation stays transitive and total. -/
def pvKeyLE {K : Type} [LinearOrder K] (parse : String → Option K)
    (a b : PkgRec) : Bool :=
  match parse a.version, parse b.version with
  | some x, some y => decide (x ≤ y)
  | none, _ => true
  | some _, none => false

/-- The fallback sort key `(x["version"], x["timestamp"], x["build"])`
(line 62), compared lexicographically as Python compares tuples. -/
def tupleKey (r : PkgRec) : String ×ₗ (Int ×ₗ String) :=
  toLex (r.version, toLex (r.timestamp, r.build))

/-- Boolean comparison of fallback keys. -/
def tupleLE (a b : PkgRec) : Bool := decide (tupleKey a ≤ tupleKey b)

/-- One group's sort in `parse_repodata` (lines 57-63): sort by parsed
version when every version in the group parses, otherwise sort the whole
group by the raw tuple key. -/
def sortGroup {K : Type} [LinearOrder K] (parse : String → Option K)
    (g : List PkgRec) : List PkgRec :=
  if g.all (fun r => (parse r.version).isSome) then
    g.mergeSort (pvKeyLE parse)
  else
    g.mergeSort tupleLE

/-! ## Theorems -/

/-- Helper: searching the reverse of a list finds the last satisfying
element — characterized by a decomposition whose suffix has no satisfying
element. -/
theorem reverse_find?_eq_some_iff {p : α → Bool} {l : List α} {r : α} :
    l.reverse.find? p = some r ↔
      p r = true ∧ ∃ pre suf, l = pre ++ r :: suf ∧ ∀ x ∈ suf, p x = false := by
  rw [List.find?_eq_some]
  constructor
  · rintro ⟨hr, as, bs, hsplit, hfail⟩
    refine ⟨hr, bs.reverse, as.reverse, ?_, ?_⟩
    · have := congrArg List.reverse hsplit
      simpa using this
    · intro x hx
      have := hfail x (by simpa using hx)
      simpa using this
  · rintro ⟨hr, pre, suf, hsplit, hfail⟩
    refine ⟨hr, suf.reverse, pre.reverse, ?_, ?_⟩
    · rw [hsplit]; simp
    · intro x hx
      have := hfail x (by simpa using hx)
      simpa using this

/-- Claim C1: for every package present in the database and every upper
bound `v`, resolution succeeds with exactly the newest record of the
(possibly build-filtered, ascending-sorted) group whose parsed version is
`<=` the parsed bound — i.e. a record satisfying the bound all of whose
successors in the group violate it — and fails with `VersionNotFoundError`
exactly when every record of the group violates the bound. -/
theorem claim_C1 (pvLE : String → String → Bool)
    (db : List (String × List PkgRec)) (pkg v py : String)
    (specs : List PkgRec) (hdb : dbLookup db pkg = some specs) :
    (∀ r, get_pkg_spec pvLE db pkg (some v) py = .ok r ↔
      pvLE r.version v = true ∧
      ∃ pre suf, applyBuildFilter py specs = pre ++ r :: suf ∧
        ∀ x ∈ suf, pvLE x.version v = false) ∧
    (get_pkg_spec pvLE db pkg (some v) py = .error (.versionNotFound v pkg) ↔
      ∀ r ∈ applyBuildFilter py specs, pvLE r.version v = false) := by
  unfold get_pkg_spec
  rw [hdb]
  constructor
  · intro r
    cases hfind : (applyBuildFilter py specs).reverse.find?
        (fun p => pvLE p.version v) with
    | none =>
      simp only [hfind]
      constructor
      · intro h; cases h
      · rintro ⟨hr, pre, suf, hsplit, -⟩
        rw [List.find?_eq_none] at hfind
        exact absurd hr (by simpa using hfind r (by rw [hsplit]; simp))
    | some r' =>
      simp only [hfind]
      rw [reverse_find?_eq_some_iff] at hfind
      constructor
      · rintro ⟨rfl⟩; exact hfind
      · rintro ⟨hr, pre, suf, hsplit, hfail⟩
        obtain ⟨hr', pre', suf', hsplit', hfail'⟩ := hfind
        -- two "last satisfying" decompositions coincide
        have : r' = r := by
          rw [hsplit] at hsplit'
          rcases List.append_eq_append_iff.mp hsplit' with ⟨mid, h1, h2⟩ | ⟨mid, h1, h2⟩
          · cases mid with
            | nil =>
              simp only [List.nil_append] at h2
              injection h2 with ha _
              exact ha.symm
            | cons y ys =>
              simp only [List.cons_append] at h2
              injection h2 with ha hb
              have hy : r' ∈ suf := by rw [hb]; simp
              exact absurd hr' (by simp [hfail r' hy])
          · cases mid with
            | nil =>
              simp only [List.nil_append] at h2
              injection h2
            | cons y ys =>
              simp only [List.cons_append] at h2
              injection h2 with ha hb
              have hy : r ∈ suf' := by rw [hb]; simp
              exact absurd hr (by simp [hfail' r hy])
        simp [this]
  · cases hfind : (applyBuildFilter py specs).reverse.find?
        (fun p => pvLE p.version v) with
    | none =>
      simp only [hfind]
      rw [List.find?_eq_none] at hfind
      constructor
      · intro _ r hr
        simpa using hfind r (by simpa using hr)
      · intro _; trivial
    | some r' =>
      simp only [hfind]
      rw [reverse_find?_eq_some_iff] at hfind
      obtain ⟨hr', pre', suf', hsplit', -⟩ := hfind
      constructor
      · intro h; cases h
      · intro hall
        exact absurd hr' (by simp [hall r' (by rw [hsplit']; simp)])

/-- Claim C1 witness: a concrete database where the bound `"2"` resolves to
version `"1.5"`, skipping the newer `"3.0"`. -/
theorem claim_C1_witness :
    let r15 : PkgRec := ⟨"a", "1.5", "u", [], "a-1.5", 5, "py310"⟩
    let r30 : PkgRec := ⟨"a", "3.0", "u", [], "a-3.0", 9, "py310"⟩
    let db := [("a", [r15, r30])]
    let pvLE : String → String → Bool := fun x y => x ≤ y
    (∀ r, get_pkg_spec pvLE db "a" (some "2") "" = .ok r ↔
      pvLE r.version "2" = true ∧
      ∃ pre suf, applyBuildFilter "" [r15, r30] = pre ++ r :: suf ∧
        ∀ x ∈ suf, pvLE x.version "2" = false) ∧
    (get_pkg_spec pvLE db "a" (some "2") "" =
        .error (.versionNotFound "2" "a") ↔
      ∀ r ∈ applyBuildFilter "" [r15, r30], pvLE r.version "2" = false) :=
  claim_C1 (fun x y => x ≤ y) _ "a" "2" ""
    [⟨"a", "1.5", "u", [], "a-1.5", 5, "py310"⟩,
     ⟨"a", "3.0", "u", [], "a-3.0", 9, "py310"⟩] rfl

/-- Claim C8: the build filter narrows the group to the records whose build
string contains the filter as a substring; when that narrowing would be
empty the filter is discarded and the full group kept, so for a non-empty
group the filter never empties the candidate set, and resolution without an
upper bound always succeeds. -/
theorem claim_C8 (pvLE : String → String → Bool)
    (db : List (String × List PkgRec)) (pkg py : String)
    (specs : List PkgRec) (hdb : dbLookup db pkg = some specs)
    (hne : specs ≠ []) :
    applyBuildFilter py specs ≠ [] ∧
    (∀ r ∈ applyBuildFilter py specs, r ∈ specs) ∧
    (py ≠ "" → specs.filter (fun x => pyContains x.build py) ≠ [] →
      applyBuildFilter py specs =
        specs.filter (fun x => pyContains x.build py) ∧
      ∀ r ∈ applyBuildFilter py specs, pyContains r.build py = true) ∧
    (specs.filter (fun x => pyContains x.build py) = [] →
      applyBuildFilter py specs = specs) ∧
    (∃ r, get_pkg_spec pvLE db pkg none py = .ok r) := by
  have habf : applyBuildFilter py specs =
      if py ≠ "" ∧ specs.filter (fun x => pyContains x.build py) ≠ [] then
        specs.filter (fun x => pyContains x.build py)
      else specs := by
    unfold applyBuildFilter
    by_cases hpy : py = ""
    · simp [hpy]
    · cases hl : specs.filter (fun x => pyContains x.build py) with
      | nil => simp [hpy]
      | cons a l => simp [hpy]
  have hne2 : applyBuildFilter py specs ≠ [] := by
    rw [habf]; split_ifs with h
    · exact h.2
    · exact hne
  refine ⟨hne2, ?_, ?_, ?_, ?_⟩
  · intro r hr
    rw [habf] at hr
    split_ifs at hr with h
    · exact List.mem_of_mem_filter hr
    · exact hr
  · intro hpy hflt
    rw [habf, if_pos ⟨hpy, hflt⟩]
    exact ⟨rfl, fun r hr => (List.mem_filter.mp hr).2⟩
  · intro hflt
    rw [habf, if_neg (fun h => h.2 hflt)]
  · unfold get_pkg_spec
    rw [hdb]
    cases hg : (applyBuildFilter py specs).getLast? with
    | none => exact absurd (List.getLast?_eq_none_iff.mp hg) hne2
    | some r => exact ⟨r, by simp [hg]⟩

/-- Claim C8 witness: a one-record group whose build string does not contain
the filter `"310"`; the filter falls back to the full group and unbounded
resolution succeeds. -/
theorem claim_C8_witness :
    let r39 : PkgRec := ⟨"a", "1.0", "u", [], "a-1.0", 5, "py39"⟩
    let db := [("a", [r39])]
    applyBuildFilter "310" [r39] ≠ [] ∧
    (∀ r ∈ applyBuildFilter "310" [r39], r ∈ [r39]) ∧
    ("310" ≠ "" → [r39].filter (fun x => pyContains x.build "310") ≠ [] →
      applyBuildFilter "310" [r39] =
        [r39].filter (fun x => pyContains x.build "310") ∧
      ∀ r ∈ applyBuildFilter "310" [r39], pyContains r.build "310" = true) ∧
    ([r39].filter (fun x => pyContains x.build "310") = [] →
      applyBuildFilter "310" [r39] = [r39]) ∧
    (∃ r, get_pkg_spec (fun x y => x ≤ y) db "a" none "310" = .ok r) :=
  claim_C8 (fun x y => x ≤ y) _ "a" "310"
    [⟨"a", "1.0", "u", [], "a-1.0", 5, "py39"⟩] rfl (by decide)

/-- Claim C7: a URL whose path component is exactly `1.2.3.tar.gz` gets the
package-name-prefixed destination `pkg ++ "-" ++ "1.2.3.tar.gz"` (the name
matches the version-only shape), while one whose path component is
`mylib-src.zip` keeps its name unchanged. -/
theorem claim_C7 (pkg url1 url2 : String)
    (h1 : urlparsePath url1 = "1.2.3.tar.gz")
    (h2 : urlparsePath url2 = "mylib-src.zip") :
    destFilename pkg none url1 = pkg ++ "-" ++ "1.2.3.tar.gz" ∧
    destFilename pkg none url2 = "mylib-src.zip" := by
  have hb1 : basename "1.2.3.tar.gz" = "1.2.3.tar.gz" := by decide
  have hb2 : basename "mylib-src.zip" = "mylib-src.zip" := by decide
  have hs1 : fn_is_simple "1.2.3.tar.gz" = true := by decide
  have hs2 : fn_is_simple "mylib-src.zip" = false := by decide
  simp [destFilename, url_basename, h1, h2, hb1, hb2, hs1, hs2]

/-- Claim C7 witness at two concrete source URLs (scheme-less URLs whose
path component is exactly the filename, as the claim requires). -/
theorem claim_C7_witness :
    destFilename "mypkg" none "1.2.3.tar.gz" =
      "mypkg" ++ "-" ++ "1.2.3.tar.gz" ∧
    destFilename "mypkg" none "mylib-src.zip" =
      "mylib-src.zip" :=
  claim_C7 "mypkg" "1.2.3.tar.gz" "mylib-src.zip" (by decide) (by decide)

/-- Claim C9: an explicitly declared destination filename that itself
matches the version-only shape is still package-name-prefixed, and the
prefixing rule treats an explicit filename exactly like one derived from
the URL path. -/
theorem claim_C9 (pkg url fn : String) (h : fn_is_simple fn = true) :
    destFilename pkg (some fn) url = pkg ++ "-" ++ fn ∧
    (∀ url', url_basename url' = fn →
      destFilename pkg (some fn) url = destFilename pkg none url') := by
  constructor
  · simp [destFilename, h]
  · intro url' hurl
    simp [destFilename, hurl]

/-- Claim C9 witness: the explicit filename `1.2.3.tar.gz` is prefixed even
though it was declared, not derived. -/
theorem claim_C9_witness :
    destFilename "mypkg" (some "1.2.3.tar.gz") "https://example.com/dl/src.zip" =
      "mypkg" ++ "-" ++ "1.2.3.tar.gz" ∧
    (∀ url', url_basename url' = "1.2.3.tar.gz" →
      destFilename "mypkg" (some "1.2.3.tar.gz") "https://example.com/dl/src.zip" =
        destFilename "mypkg" none url') :=
  claim_C9 "mypkg" "https://example.com/dl/src.zip" "1.2.3.tar.gz" (by decide)

/-- `startsWithChars` decides list-prefix. -/
theorem startsWithChars_iff (cs pat : List Char) :
    startsWithChars cs pat = true ↔ pat <+: cs := by
  induction pat generalizing cs with
  | nil => simp [startsWithChars]
  | cons p ps ih =>
    cases cs with
    | nil => simp [startsWithChars]
    | cons c cs' =>
      simp only [startsWithChars, Bool.and_eq_true, decide_eq_true_eq, ih,
        List.cons_prefix_cons]
      constructor
      · rintro ⟨h1, h2⟩; exact ⟨h1.symm, h2⟩
      · rintro ⟨h1, h2⟩; exact ⟨h1.symm, h2⟩

/-- `containsChars` decides list-infix (Python's `in`). -/
theorem containsChars_iff (cs pat : List Char) :
    containsChars cs pat = true ↔ pat <:+: cs := by
  induction cs with
  | nil =>
    simp only [containsChars, List.isEmpty_iff]
    constructor
    · rintro rfl; exact List.infix_refl []
    · intro h; exact List.eq_nil_of_infix_nil h
  | cons c cs' ih =>
    simp only [containsChars, Bool.or_eq_true, startsWithChars_iff, ih]
    constructor
    · rintro (h | h)
      · exact h.isInfix
      · exact h.trans (List.suffix_cons c cs').isInfix
    · intro h
      rcases List.infix_cons_iff.mp h with h | h
      · exact Or.inl h
      · exact Or.inr h

/-- If `pat` occurs in `b`, it occurs in `pathJoin a b` (whose data always
has `b`'s data as a suffix, whichever join branch applies). -/
theorem pyContains_pathJoin_of_right (a b pat : String)
    (h : pyContains b pat = true) : pyContains (pathJoin a b) pat = true := by
  have hinf : pat.data <:+: b.data := (containsChars_iff _ _).mp h
  unfold pathJoin
  split_ifs with h1 h2
  · exact h
  · unfold pyContains
    rw [containsChars_iff, String.data_append]
    exact hinf.trans (List.suffix_append _ _).isInfix
  · unfold pyContains
    rw [containsChars_iff, String.data_append]
    exact hinf.trans (List.suffix_append _ _).isInfix

/-- `takeWhile` walks through a block that satisfies the predicate. -/
theorem takeWhile_append_all (p : Char → Bool) (l1 l2 : List Char)
    (h : ∀ c ∈ l1, p c = true) :
    (l1 ++ l2).takeWhile p = l1 ++ l2.takeWhile p := by
  induction l1 with
  | nil => simp
  | cons c cs ih =>
    simp only [List.cons_append, List.takeWhile_cons, h c (by simp)]
    rw [ih (fun c hc => h c (by simp [hc]))]
    simp

/-- The basename of `pathJoin a b` is `b` whenever `b` is a non-empty
slash-free filename. -/
theorem basename_pathJoin (a b : String)
    (hns : ∀ c ∈ b.data, c ≠ '/') : basename (pathJoin a b) = b := by
  have hall : ∀ c ∈ b.data.reverse, (c != '/') = true := by
    intro c hc
    have : c ∈ b.data := List.mem_reverse.mp hc
    simpa using hns c this
  have hbase : ∀ xs, basenameChars (xs ++ '/' :: b.data) = b.data := by
    intro xs
    unfold basenameChars
    rw [List.reverse_append, List.reverse_cons, List.append_assoc]
    rw [takeWhile_append_all _ _ _ hall]
    simp
  have hself : basenameChars b.data = b.data := by
    unfold basenameChars
    have h2 := takeWhile_append_all (fun c => c != '/') b.data.reverse [] hall
    simp only [List.append_nil, List.takeWhile_nil] at h2
    rw [h2, List.reverse_reverse]
  unfold pathJoin
  split_ifs with h1 h2
  · exact String.ext hself
  · rcases Bool.or_eq_true _ _ |>.mp (by exact_mod_cast h2) with h | h
    · have ha : a = "" := by simpa using h
      subst ha
      apply String.ext
      show basenameChars (("" ++ b).data) = b.data
      simpa using hself
    · have ha : a.data.getLast? = some '/' := by simpa using h
      obtain ⟨ys, hys⟩ := List.getLast?_eq_some_iff.mp ha
      apply String.ext
      show basenameChars ((a ++ b).data) = b.data
      rw [String.data_append, hys, List.append_assoc]
      exact hbase ys
  · apply String.ext
    show basenameChars ((a ++ "/" ++ b).data) = b.data
    rw [String.data_append, String.data_append]
    have : ("/" : String).data = ['/'] := rfl
    rw [this, List.append_assoc]
    exact hbase a.data

/-- Claim C3: for an artifact named `pkg-1.0-0.conda`, the derived inner
metadata-tar filename is exactly `info-pkg-1.0-0.tar.zst`, and the outer zip
unpack and the inner decompressed-tar unpack write into the same destination
directory. -/
theorem claim_C3 (workdir url : String)
    (h : url_basename url = "pkg-1.0-0.conda") :
    unpackPlan workdir url =
      [⟨pathJoin workdir "pkg-1.0-0.conda",
        pathJoin workdir "pkg-1.0-0", "conda"⟩,
       ⟨pathJoin (pathJoin workdir "pkg-1.0-0") "info-pkg-1.0-0.tar.zst",
        pathJoin workdir "pkg-1.0-0", "zst"⟩] ∧
    ∀ c1 c2, unpackPlan workdir url = [c1, c2] → c1.dest = c2.dest := by
  have hb : basename (pathJoin workdir "pkg-1.0-0.conda") = "pkg-1.0-0.conda" :=
    basename_pathJoin _ _ (by decide)
  have hr1 : pyReplace "pkg-1.0-0.conda" ".tar.bz2" "" = "pkg-1.0-0.conda" := by
    decide
  have hr2 : pyReplace "pkg-1.0-0.conda" ".conda" "" = "pkg-1.0-0" := by decide
  have hr3 : "info-" ++ pyReplace "pkg-1.0-0.conda" ".conda" ".tar.zst" =
      "info-pkg-1.0-0.tar.zst" := by decide
  have hc : pyContains (pathJoin workdir "pkg-1.0-0.conda") ".conda" = true :=
    pyContains_pathJoin_of_right _ _ _ (by decide)
  have hplan : unpackPlan workdir url =
      [⟨pathJoin workdir "pkg-1.0-0.conda",
        pathJoin workdir "pkg-1.0-0", "conda"⟩,
       ⟨pathJoin (pathJoin workdir "pkg-1.0-0") "info-pkg-1.0-0.tar.zst",
        pathJoin workdir "pkg-1.0-0", "zst"⟩] := by
    simp only [unpackPlan, h, hb, hr1, hr2, hr3, hc]
    simp
  refine ⟨hplan, ?_⟩
  intro c1 c2 heq
  rw [hplan] at heq
  injection heq with h1 htail
  injection htail with h2 _
  rw [← h1, ← h2]

/-- Claim C3 witness at a concrete channel URL and workdir. -/
theorem claim_C3_witness :
    unpackPlan "workdir" "https://conda.example/linux-64/pkg-1.0-0.conda" =
      [⟨pathJoin "workdir" "pkg-1.0-0.conda",
        pathJoin "workdir" "pkg-1.0-0", "conda"⟩,
       ⟨pathJoin (pathJoin "workdir" "pkg-1.0-0") "info-pkg-1.0-0.tar.zst",
        pathJoin "workdir" "pkg-1.0-0", "zst"⟩] ∧
    ∀ c1 c2,
      unpackPlan "workdir" "https://conda.example/linux-64/pkg-1.0-0.conda" =
        [c1, c2] → c1.dest = c2.dest :=
  claim_C3 "workdir" "https://conda.example/linux-64/pkg-1.0-0.conda"
    (by decide)

/-- `selectHash` fails exactly when all three hash keys are absent. -/
theorem selectHash_error_iff (it : SrcItem) :
    (∃ e, selectHash it = .error e) ↔
      it.md5 = none ∧ it.sha256 = none ∧ it.sha1 = none := by
  obtain ⟨u, m, s2, s1, f⟩ := it
  cases m <;> cases s2 <;> cases s1 <;> simp [selectHash]

/-- `loadUrlsAux` skips url-less items. -/
theorem loadUrlsAux_filter (items : List SrcItem)
    (acc : List (String × SrcInfo)) :
    loadUrlsAux items acc =
      loadUrlsAux (items.filter (fun it => it.url.isSome)) acc := by
  induction items generalizing acc with
  | nil => rfl
  | cons it rest ih =>
    cases hu : it.url with
    | none => simp [loadUrlsAux, hu, List.filter_cons, ih]
    | some u =>
      simp only [List.filter_cons, hu, Option.isSome_some, if_true]
      cases hs : selectHash it with
      | error e => simp [loadUrlsAux, hu, hs]
      | ok p => simp [loadUrlsAux, hu, hs, ih]

/-- `loadUrlsAux` fails exactly when some item declares a url but none of
the three hash keys. -/
theorem loadUrlsAux_error_iff (items : List SrcItem)
    (acc : List (String × SrcInfo)) :
    (∃ e, loadUrlsAux items acc = .error e) ↔
      ∃ it ∈ items, it.url.isSome = true ∧
        it.md5 = none ∧ it.sha256 = none ∧ it.sha1 = none := by
  induction items generalizing acc with
  | nil => simp [loadUrlsAux]
  | cons it rest ih =>
    cases hu : it.url with
    | none =>
      simp only [loadUrlsAux, hu]
      rw [ih]
      constructor
      · rintro ⟨x, hx, h⟩; exact ⟨x, by simp [hx], h⟩
      · rintro ⟨x, hx, h⟩
        rcases List.mem_cons.mp hx with rfl | hx'
        · rw [hu] at h; simp at h
        · exact ⟨x, hx', h⟩
    | some u =>
      cases hs : selectHash it with
      | error e =>
        simp only [loadUrlsAux, hu, hs]
        constructor
        · intro _
          refine ⟨it, by simp, by simp [hu], ?_⟩
          exact (selectHash_error_iff it).mp ⟨e, hs⟩
        · intro _; exact ⟨e, rfl⟩
      | ok p =>
        simp only [loadUrlsAux, hu, hs]
        rw [ih]
        constructor
        · rintro ⟨x, hx, h⟩; exact ⟨x, by simp [hx], h⟩
        · rintro ⟨x, hx, h⟩
          rcases List.mem_cons.mp hx with rfl | hx'
          · exfalso
            obtain ⟨e', he'⟩ := (selectHash_error_iff x).mpr h.2
            rw [hs] at he'; cases he'
          · exact ⟨x, hx', h⟩

/-- Claim C4: `load_urls` ignores source mappings without a `url` key,
selects the hash of a url-bearing mapping by the precedence
md5 > sha256 > sha1, fails exactly when a url-bearing mapping has none of
the three hash keys, and such a failure propagates out of the download
phase before any download is planned. -/
theorem claim_C4 (items : List SrcItem) :
    (load_urls (some items) =
      load_urls (some (items.filter (fun it => it.url.isSome)))) ∧
    ((∃ e, load_urls (some items) = .error e) ↔
      ∃ it ∈ items, it.url.isSome = true ∧
        it.md5 = none ∧ it.sha256 = none ∧ it.sha1 = none) ∧
    (∀ it : SrcItem,
      (∀ h, it.md5 = some h → selectHash it = .ok ("md5", h)) ∧
      (it.md5 = none → ∀ h, it.sha256 = some h →
        selectHash it = .ok ("sha256", h)) ∧
      (it.md5 = none → it.sha256 = none → ∀ h, it.sha1 = some h →
        selectHash it = .ok ("sha1", h)) ∧
      (it.md5 = none → it.sha256 = none → it.sha1 = none →
        ∃ e, selectHash it = .error e)) ∧
    (∀ pkg pkgsDir e, load_urls (some items) = .error e →
      sourceDownloadPlan pkg pkgsDir (some items) = .error e) := by
  refine ⟨loadUrlsAux_filter items [], loadUrlsAux_error_iff items [], ?_, ?_⟩
  · intro it
    refine ⟨?_, ?_, ?_, ?_⟩
    · intro h hm; simp [selectHash, hm]
    · intro hm h hs; simp [selectHash, hm, hs]
    · intro hm hs h h1; simp [selectHash, hm, hs, h1]
    · intro hm hs h1; simp [selectHash, hm, hs, h1]
  · intro pkg pkgsDir e he
    simp [sourceDownloadPlan, he]

/-- Claim C4 witness: the theorem instantiated at a concrete source list —
a url-less patch entry, a hash-less url entry — where `load_urls` fails and
the download plan carries no downloads. -/
theorem claim_C4_witness :
    (load_urls (some [⟨none, none, none, none, none⟩,
        ⟨some "https://e.org/s.zip", none, none, none, none⟩]) =
      load_urls (some ([⟨none, none, none, none, none⟩,
        ⟨some "https://e.org/s.zip", none, none, none, none⟩].filter
          (fun it => it.url.isSome)))) ∧
    ((∃ e, load_urls (some [⟨none, none, none, none, none⟩,
        ⟨some "https://e.org/s.zip", none, none, none, none⟩]) = .error e) ↔
      ∃ it ∈ [(⟨none, none, none, none, none⟩ : SrcItem),
        ⟨some "https://e.org/s.zip", none, none, none, none⟩],
        it.url.isSome = true ∧
        it.md5 = none ∧ it.sha256 = none ∧ it.sha1 = none) ∧
    (∀ it : SrcItem,
      (∀ h, it.md5 = some h → selectHash it = .ok ("md5", h)) ∧
      (it.md5 = none → ∀ h, it.sha256 = some h →
        selectHash it = .ok ("sha256", h)) ∧
      (it.md5 = none → it.sha256 = none → ∀ h, it.sha1 = some h →
        selectHash it = .ok ("sha1", h)) ∧
      (it.md5 = none → it.sha256 = none → it.sha1 = none →
        ∃ e, selectHash it = .error e)) ∧
    (∀ pkg pkgsDir e,
      load_urls (some [⟨none, none, none, none, none⟩,
        ⟨some "https://e.org/s.zip", none, none, none, none⟩]) = .error e →
      sourceDownloadPlan pkg pkgsDir
        (some [⟨none, none, none, none, none⟩,
          ⟨some "https://e.org/s.zip", none, none, none, none⟩]) = .error e) :=
  claim_C4 [⟨none, none, none, none, none⟩,
    ⟨some "https://e.org/s.zip", none, none, none, none⟩]

/-- A non-empty suffix has the same last element as the full list. -/
theorem getLast?_of_suffix {l1 l2 : List Char} (h : l1 <:+ l2)
    (hne : l1 ≠ []) : l1.getLast? = l2.getLast? := by
  obtain ⟨t, rfl⟩ := h
  rw [List.getLast?_append]
  cases hl : l1.getLast? with
  | none => exact absurd (List.getLast?_eq_none_iff.mp hl) hne
  | some c => rfl

/-- `matchTail` fails on an empty input and on any input ending in `}`
(the `[^}]+$` group needs at least one non-`}` character at the end). -/
theorem matchTail_none (r6 : List Char)
    (h : r6 = [] ∨ r6.getLast? = some '}') : matchTail r6 = none := by
  have htl : (r6.reverse.takeWhile (fun c => c != '}')).reverse = [] := by
    rcases h with rfl | h
    · rfl
    · obtain ⟨ys, rfl⟩ := List.getLast?_eq_some_iff.mp h
      rw [List.reverse_append]
      simp [List.takeWhile_cons]
  simp only [matchTail, htl]
  rfl

/-- `matchBody` fails on an empty input and on any input ending in `}`. -/
theorem matchBody_none (r4 : List Char)
    (h : r4 = [] ∨ r4.getLast? = some '}') : matchBody r4 = none := by
  simp only [matchBody]
  split
  · rfl
  · next hpre =>
    split
    · next r6 heq =>
      have hr4ne : r4 ≠ [] := by
        rintro rfl
        simp at heq
      have hlast : r4.getLast? = some '}' := by
        rcases h with rfl | h
        · exact absurd rfl hr4ne
        · exact h
      rw [matchTail_none r6 ?_]
      · rfl
      · by_cases hr6 : r6 = []
        · exact Or.inl hr6
        · right
          have h65 : r6 <:+ r4.drop (r4.takeWhile (fun c => c != '{')).length :=
            ⟨['{', '{'], heq.symm⟩
          have h64 : r6 <:+ r4 := h65.trans (List.drop_suffix _ _)
          rw [getLast?_of_suffix h64 hr6, hlast]
    · rfl

/-- Claim C10 helper: a line whose last character is `}` never matches the
candidate pattern, because group 3 (`[^}]+$`) must be a non-empty run of
non-`}` characters ending the line. -/
theorem matchUrlLine_none_of_ends_brace (line : List Char)
    (h : line.getLast? = some '}') : matchUrlLine line = none := by
  have key : ∀ r2 : List Char, r2 <:+ line →
      matchBody ((r2.dropWhile isPySpace).drop 4) = none := by
    intro r2 h2
    by_cases hr4 : (r2.dropWhile isPySpace).drop 4 = []
    · exact matchBody_none _ (Or.inl hr4)
    · refine matchBody_none _ (Or.inr ?_)
      have hsuf : (r2.dropWhile isPySpace).drop 4 <:+ line :=
        (List.drop_suffix _ _).trans ((List.dropWhile_suffix _).trans h2)
      rw [getLast?_of_suffix hsuf hr4, h]
  simp only [matchUrlLine]
  by_cases hd : (line.dropWhile isPySpace).head? == some '-'
  · simp only [hd, if_true]
    rw [key (line.dropWhile isPySpace).tail
      ((List.tail_suffix _).trans (List.dropWhile_suffix _))]
    simp
  · simp only [hd, Bool.false_eq_true, if_false]
    rw [key (line.dropWhile isPySpace) (List.dropWhile_suffix _)]
    simp

/-- Claim C10: a `url:` line whose text ends at the closing `}}` (empty
literal tail — in fact any line ending in `}`) is not a rewrite candidate:
it passes through unchanged and produces no diagnostic. -/
theorem claim_C10 (urls : List (String × SrcInfo)) (pkgsDir tplDir : String)
    (line : String) (h : line.data.getLast? = some '}') :
    matchUrlLine line.data = none ∧
    replaceLine urls pkgsDir tplDir line = ([line], false) := by
  have hm := matchUrlLine_none_of_ends_brace line.data h
  exact ⟨hm, by simp [replaceLine, hm]⟩

/-- Claim C10 witness: a templated `url:` line ending exactly at `}}`. -/
theorem claim_C10_witness :
    matchUrlLine "  url: https://e.org/{{ version }}".data = none ∧
    replaceLine [] "/p" "/r" "  url: https://e.org/{{ version }}" =
      (["  url: https://e.org/{{ version }}"], false) :=
  claim_C10 [] "/p" "/r" "  url: https://e.org/{{ version }}" (by decide)

/-! ### Round-trip lemmas for newline splitting -/

/-- Splitting a newline-free chunk yields that chunk alone. -/
theorem splitNlChars_no_nl (l : List Char) (h : '\n' ∉ l) :
    splitNlChars l = [l] := by
  induction l with
  | nil => rfl
  | cons c cs ih =>
    simp only [List.mem_cons, not_or] at h
    have hc : ¬(c = '\n') := fun hc => h.1 hc.symm
    simp only [splitNlChars, if_neg hc]
    rw [ih h.2]

/-- Splitting walks through a leading newline-free chunk. -/
theorem splitNlChars_append (l rest : List Char) (h : '\n' ∉ l) :
    splitNlChars (l ++ '\n' :: rest) = l :: splitNlChars rest := by
  induction l with
  | nil => simp [splitNlChars]
  | cons c cs ih =>
    simp only [List.mem_cons, not_or] at h
    have hc : ¬(c = '\n') := fun hc => h.1 hc.symm
    show splitNlChars (c :: (cs ++ '\n' :: rest)) = (c :: cs) :: splitNlChars rest
    simp only [splitNlChars, if_neg hc]
    rw [ih h.2]

/-- `split("\n")` inverts `"\n".join` on a non-empty list of newline-free
lines. -/
theorem splitNl_joinNl (ls : List String) (hne : ls ≠ [])
    (h : ∀ l ∈ ls, '\n' ∉ l.data) : splitNl (joinNl ls) = ls := by
  induction ls with
  | nil => exact absurd rfl hne
  | cons l rest ih =>
    cases rest with
    | nil =>
      show (splitNlChars l.data).map String.mk = [l]
      rw [splitNlChars_no_nl l.data (h l (by simp))]
      simp
    | cons l2 rest2 =>
      show (splitNlChars (l ++ "\n" ++ joinNl (l2 :: rest2)).data).map
        String.mk = l :: l2 :: rest2
      rw [String.data_append, String.data_append]
      have hnl : ("\n" : String).data = ['\n'] := rfl
      rw [hnl, List.append_assoc, List.singleton_append]
      rw [splitNlChars_append _ _ (h l (by simp))]
      rw [List.map_cons]
      have := ih (by simp) (fun x hx => h x (by simp [List.mem_cons.mp hx]))
      rw [show (splitNlChars (joinNl (l2 :: rest2)).data).map String.mk =
        splitNl (joinNl (l2 :: rest2)) from rfl, this]

/-- Claim C5: the `load_urls` / `replace_urls` round trip, characterized
per line and lifted to whole documents.  (i) Lines not matching the
candidate shape pass through unchanged with no diagnostic.  (ii) A
candidate line whose head/tail pattern matches a known URL — the first in
discovery order — is replaced by the original line commented out, followed
immediately by a literal `url:` line whose path is the source's local
destination file relative to the metadata document's directory.  (iii) A
candidate matching no known URL passes through unchanged with only a
diagnostic.  (iv) On a whole document, the surrounding lines are processed
independently and the two replacement lines appear in place of the
candidate. -/
theorem claim_C5 (urls : List (String × SrcInfo)) (pkgsDir tplDir : String) :
    (∀ line : String, matchUrlLine line.data = none →
      replaceLine urls pkgsDir tplDir line = ([line], false)) ∧
    (∀ (line : String) m u info pre suf,
      matchUrlLine line.data = some m →
      urls = pre ++ (u, info) :: suf →
      (∀ uv ∈ pre, urlMatches m.headLit m.tailLit uv.1.data = false) →
      urlMatches m.headLit m.tailLit u.data = true →
      replaceLine urls pkgsDir tplDir line =
        (["#" ++ line,
          String.mk m.g1 ++ relpath (pathJoin pkgsDir
            (match info.fn with
             | some f => f
             | none => url_basename u)) tplDir], false)) ∧
    (∀ (line : String) m, matchUrlLine line.data = some m →
      (∀ uv ∈ urls, urlMatches m.headLit m.tailLit uv.1.data = false) →
      replaceLine urls pkgsDir tplDir line = ([line], true)) ∧
    (∀ (preLs postLs : List String) (line : String),
      (∀ l ∈ preLs ++ line :: postLs, '\n' ∉ l.data) →
      replace_urls urls pkgsDir tplDir (joinNl (preLs ++ line :: postLs)) =
        joinNl ((preLs.map
            (fun l => (replaceLine urls pkgsDir tplDir l).1)).flatten ++
          (replaceLine urls pkgsDir tplDir line).1 ++
          (postLs.map
            (fun l => (replaceLine urls pkgsDir tplDir l).1)).flatten)) := by
  refine ⟨?_, ?_, ?_, ?_⟩
  · intro line hm
    simp [replaceLine, hm]
  · intro line m u info pre suf hm hsplit hpre hmatch
    have hfind : urls.find?
        (fun uv => urlMatches m.headLit m.tailLit uv.1.data) =
        some (u, info) := by
      rw [List.find?_eq_some]
      refine ⟨hmatch, pre, suf, hsplit, ?_⟩
      intro a ha
      simp [hpre a ha]
    simp [replaceLine, hm, hfind]
  · intro line m hm hall
    have hfind : urls.find?
        (fun uv => urlMatches m.headLit m.tailLit uv.1.data) = none := by
      rw [List.find?_eq_none]
      intro uv huv
      simp [hall uv huv]
    simp [replaceLine, hm, hfind]
  · intro preLs postLs line h
    unfold replace_urls
    rw [splitNl_joinNl _ (by simp) h]
    rw [List.map_append, List.map_cons, List.flatten_append,
      List.flatten_cons, List.append_assoc]

/-- Claim C5 witness: one source URL, one candidate line; the rewritten
pair is the commented original followed by the relative local path. -/
theorem claim_C5_witness :
    replaceLine [("https://e.org/pkg-1.0.tar.gz",
        ⟨"md5", "abc", none⟩)] "/home/u/pkgs" "/home/u/recipes/pkg-1.0"
        "  - url: https://e.org/pkg-{{ version }}.tar.gz" =
      (["#  - url: https://e.org/pkg-{{ version }}.tar.gz",
        "  - url: ../../pkgs/pkg-1.0.tar.gz"], false) := by
  have h := (claim_C5 [("https://e.org/pkg-1.0.tar.gz",
      ⟨"md5", "abc", none⟩)] "/home/u/pkgs" "/home/u/recipes/pkg-1.0").2.1
    "  - url: https://e.org/pkg-{{ version }}.tar.gz"
    ⟨"  - url: ".data, "https://e.org/pkg-".data, ".tar.gz".data⟩
    "https://e.org/pkg-1.0.tar.gz" ⟨"md5", "abc", none⟩ [] []
    (by decide) rfl (by intro uv huv; simp at huv) (by decide)
  rw [h]
  decide

/-- Claim C6 (counterexample): `extract_reqs` on the C6 document does NOT
return the indentation-preserving text the claim states, because every line is
`strip()`ped before being emitted. -/
theorem claim_C6_counterexample :
    extract_reqs c6Doc ≠ "requirements:\n  host:\n    - a\n  run:\n    - b" := by
  decide

/-- Claim C6 (amended): `extract_reqs` on the C6 document yields exactly
`"requirements:\nhost:\n- a\nrun:\n- b"` — the `about:` line and everything
after it are excluded, and each emitted line is stripped of its indentation. -/
theorem claim_C6 :
    extract_reqs c6Doc = "requirements:\nhost:\n- a\nrun:\n- b" := by
  decide

/-- `pvKeyLE` is transitive. -/
theorem pvKeyLE_trans {K : Type} [LinearOrder K] (parse : String → Option K) :
    ∀ a b c : PkgRec, pvKeyLE parse a b → pvKeyLE parse b c →
      pvKeyLE parse a c := by
  intro a b c hab hbc
  unfold pvKeyLE at hab hbc ⊢
  cases hpa : parse a.version with
  | none => rfl
  | some x =>
    cases hpb : parse b.version with
    | none => rw [hpa, hpb] at hab; exact absurd hab (by simp)
    | some y =>
      cases hpc : parse c.version with
      | none => rw [hpb, hpc] at hbc; exact absurd hbc (by simp)
      | some z =>
        rw [hpa, hpb] at hab
        rw [hpb, hpc] at hbc
        simp only [decide_eq_true_eq] at hab hbc
        simp only [decide_eq_true_eq]
        exact le_trans hab hbc

/-- `pvKeyLE` is total. -/
theorem pvKeyLE_total {K : Type} [LinearOrder K] (parse : String → Option K) :
    ∀ a b : PkgRec, pvKeyLE parse a b || pvKeyLE parse b a := by
  intro a b
  unfold pvKeyLE
  cases parse a.version <;> cases parse b.version <;> simp [le_total]

/-- `tupleLE` is transitive. -/
theorem tupleLE_trans : ∀ a b c : PkgRec,
    tupleLE a b → tupleLE b c → tupleLE a c := by
  intro a b c hab hbc
  unfold tupleLE at hab hbc ⊢
  simp only [decide_eq_true_eq] at hab hbc ⊢
  exact le_trans hab hbc

/-- `tupleLE` is total. -/
theorem tupleLE_total : ∀ a b : PkgRec, tupleLE a b || tupleLE b a := by
  intro a b
  unfold tupleLE
  rcases le_total (tupleKey a) (tupleKey b) with h | h <;> simp [h]

/-- Claim C2: for every non-empty version group, the build sorts the group
ascending by parsed version when every version parses; otherwise the whole
group falls back to the (total) lexicographic tuple order
(version, timestamp, build); either way the output is a permutation of the
group and the sort is stable (order-respecting pairs keep their relative
order). -/
theorem claim_C2 {K : Type} [LinearOrder K] (parse : String → Option K)
    (g : List PkgRec) (_hne : g ≠ []) :
    (sortGroup parse g).Perm g ∧
    ((∀ r ∈ g, (parse r.version).isSome) →
      sortGroup parse g = g.mergeSort (pvKeyLE parse) ∧
      (sortGroup parse g).Pairwise (fun a b => ∃ x y,
        parse a.version = some x ∧ parse b.version = some y ∧ x ≤ y)) ∧
    ((¬ ∀ r ∈ g, (parse r.version).isSome) →
      sortGroup parse g = g.mergeSort tupleLE ∧
      (sortGroup parse g).Pairwise (fun a b => tupleLE a b = true)) ∧
    (∀ a b : PkgRec, tupleLE a b = true ∨ tupleLE b a = true) ∧
    (∀ a b : PkgRec, List.Sublist [a, b] g →
      (if ∀ r ∈ g, (parse r.version).isSome then pvKeyLE parse a b = true
       else tupleLE a b = true) →
      List.Sublist [a, b] (sortGroup parse g)) := by
  have hallIff : g.all (fun r => (parse r.version).isSome) = true ↔
      ∀ r ∈ g, (parse r.version).isSome := by
    simp [List.all_eq_true]
  refine ⟨?_, ?_, ?_, ?_, ?_⟩
  · unfold sortGroup
    split
    · exact List.mergeSort_perm g _
    · exact List.mergeSort_perm g _
  · intro hall
    have hg : sortGroup parse g = g.mergeSort (pvKeyLE parse) := by
      unfold sortGroup
      rw [if_pos (hallIff.mpr hall)]
    refine ⟨hg, ?_⟩
    rw [hg]
    have hs := List.sorted_mergeSort (pvKeyLE_trans parse) (pvKeyLE_total parse) g
    refine hs.imp_of_mem ?_
    intro a b ha hb hab
    have ha' : (parse a.version).isSome := hall a (List.mem_mergeSort.mp ha)
    have hb' : (parse b.version).isSome := hall b (List.mem_mergeSort.mp hb)
    obtain ⟨x, hx⟩ := Option.isSome_iff_exists.mp ha'
    obtain ⟨y, hy⟩ := Option.isSome_iff_exists.mp hb'
    refine ⟨x, y, hx, hy, ?_⟩
    unfold pvKeyLE at hab
    rw [hx, hy] at hab
    simpa using hab
  · intro hall
    have hg : sortGroup parse g = g.mergeSort tupleLE := by
      unfold sortGroup
      rw [if_neg (fun hc => hall (hallIff.mp hc))]
    refine ⟨hg, ?_⟩
    rw [hg]
    exact List.sorted_mergeSort tupleLE_trans tupleLE_total g
  · intro a b
    rcases le_total (tupleKey a) (tupleKey b) with h | h
    · left; simpa [tupleLE]
    · right; simpa [tupleLE]
  · intro a b hsub hle
    unfold sortGroup
    by_cases hall : ∀ r ∈ g, (parse r.version).isSome
    · rw [if_pos (hallIff.mpr hall)]
      rw [if_pos hall] at hle
      exact List.pair_sublist_mergeSort (pvKeyLE_trans parse)
        (pvKeyLE_total parse) hle hsub
    · rw [if_neg (fun hc => hall (hallIff.mp hc))]
      rw [if_neg hall] at hle
      exact List.pair_sublist_mergeSort tupleLE_trans tupleLE_total hle hsub

/-- Claim C2 witness: the theorem instantiated at the numeric parser
`String.toNat?` and a concrete two-record group whose versions `"10"`,
`"2"` sort numerically, not lexicographically. -/
theorem claim_C2_witness :
    let r10 : PkgRec := ⟨"a", "10", "u", [], "a-10", 1, "b0"⟩
    let r2 : PkgRec := ⟨"a", "2", "u", [], "a-2", 2, "b1"⟩
    (sortGroup String.toNat? [r10, r2]).Perm [r10, r2] ∧
    ((∀ r ∈ [r10, r2], (String.toNat? r.version).isSome) →
      sortGroup String.toNat? [r10, r2] =
        [r10, r2].mergeSort (pvKeyLE String.toNat?) ∧
      (sortGroup String.toNat? [r10, r2]).Pairwise (fun a b => ∃ x y,
        String.toNat? a.version = some x ∧ String.toNat? b.version = some y ∧
          x ≤ y)) ∧
    ((¬ ∀ r ∈ [r10, r2], (String.toNat? r.version).isSome) →
      sortGroup String.toNat? [r10, r2] = [r10, r2].mergeSort tupleLE ∧
      (sortGroup String.toNat? [r10, r2]).Pairwise
        (fun a b => tupleLE a b = true)) ∧
    (∀ a b : PkgRec, tupleLE a b = true ∨ tupleLE b a = true) ∧
    (∀ a b : PkgRec, List.Sublist [a, b] [r10, r2] →
      (if ∀ r ∈ [r10, r2], (String.toNat? r.version).isSome then
        pvKeyLE String.toNat? a b = true
       else tupleLE a b = true) →
      List.Sublist [a, b] (sortGroup String.toNat? [r10, r2])) :=
  claim_C2 String.toNat?
    [⟨"a", "10", "u", [], "a-10", 1, "b0"⟩, ⟨"a", "2", "u", [], "a-2", 2, "b1"⟩]
    (by simp)
